import Mathlib

/-!
Verification development for the `cargo-supply-chain` command-line tool and its
registry-cache subsystem.

The argument-parsing layer is embedded from `src/main.rs` (`args_parser` built
with `bpaf`).  The cache subsystem (snapshot store, registry index, live API
client, resolver) is declared in `main.rs` (`mod crates_cache;` etc.) but its
module files are not part of this tree; those components are modelled from the
specification, as indicated on each definition.

Durations are modelled as natural numbers of nanoseconds, matching Rust's
`std::time::Duration` granularity.
-/

namespace SupplyChain

/-! ## Duration parsing (model of `humantime::parse_duration`)

`args_parser` in `src/main.rs` parses `--cache-max-age` values with
`humantime::parse_duration`.  `humantime` is an external crate; its grammar is
a sequence of `<number><unit>` groups, optionally separated by whitespace,
where each number must be followed by an explicit unit.  The result is in
nanoseconds. -/

/-- Nanoseconds denoted by one `humantime` unit suffix; `none` for an
unrecognized (or missing) unit. -/
def unitNanos : String → Option Nat
  | "nanos" => some 1
  | "nsec" => some 1
  | "ns" => some 1
  | "usec" => some 1000
  | "us" => some 1000
  | "millis" => some 1000000
  | "msec" => some 1000000
  | "ms" => some 1000000
  | "seconds" => some 1000000000
  | "second" => some 1000000000
  | "secs" => some 1000000000
  | "sec" => some 1000000000
  | "s" => some 1000000000
  | "minutes" => some 60000000000
  | "minute" => some 60000000000
  | "mins" => some 60000000000
  | "min" => some 60000000000
  | "m" => some 60000000000
  | "hours" => some 3600000000000
  | "hour" => some 3600000000000
  | "hrs" => some 3600000000000
  | "hr" => some 3600000000000
  | "h" => some 3600000000000
  | "days" => some 86400000000000
  | "day" => some 86400000000000
  | "d" => some 86400000000000
  | "weeks" => some 604800000000000
  | "week" => some 604800000000000
  | "w" => some 604800000000000
  | "months" => some 2630016000000000
  | "month" => some 2630016000000000
  | "M" => some 2630016000000000
  | "years" => some 31557600000000000
  | "year" => some 31557600000000000
  | "y" => some 31557600000000000
  | _ => none

/-- Accumulate a leading run of decimal digits into a number, returning the
value and the remaining characters. -/
def digitsVal : Nat → List Char → Nat × List Char
  | n, [] => (n, [])
  | n, c :: cs =>
    if c.isDigit then digitsVal (n * 10 + (c.toNat - 48)) cs else (n, c :: cs)

/-- Take a (required, nonempty) leading run of digits; `none` if the first
character is not a digit. -/
def takeDigits (cs : List Char) : Option (Nat × List Char) :=
  match cs with
  | [] => none
  | c :: _ => if c.isDigit then some (digitsVal 0 cs) else none

/-- Take the leading run of alphabetic characters (a candidate unit name). -/
def takeUnitChars : List Char → List Char × List Char
  | [] => ([], [])
  | c :: cs =>
    if c.isAlpha then
      let (u, r) := takeUnitChars cs
      (c :: u, r)
    else ([], c :: cs)

/-- One `<number><unit>` group after another, whitespace-separated; every
number must be followed by a recognized unit.  Fueled by the input length. -/
def parseDurGroups : Nat → List Char → Option Nat
  | _, [] => some 0
  | 0, _ :: _ => none
  | fuel + 1, cs =>
    let cs1 := cs.dropWhile Char.isWhitespace
    match cs1 with
    | [] => some 0
    | _ :: _ =>
      match takeDigits cs1 with
      | none => none
      | some (n, rest) =>
        let (u, rest2) := takeUnitChars rest
        match unitNanos (String.mk u) with
        | none => none
        | some k =>
          match parseDurGroups fuel rest2 with
          | none => none
          | some r => some (n * k + r)

/-- Model of `humantime::parse_duration`: total nanoseconds, or `none` on a
malformed input (empty string, bare number with no unit, unknown unit). -/
def parse_duration (s : String) : Option Nat :=
  let cs := s.toList.dropWhile Char.isWhitespace
  if cs.isEmpty then none else parseDurGroups cs.length cs

/-! ## Command-line arguments (embedding of `args_parser` in `src/main.rs`)

`args_parser` builds a `bpaf` parser with four subcommands.  The query
subcommands `publishers`, `crates`, `json` share `QueryCommandArgs`
(`--cache-max-age`, `-d`/`--diffable`, repeated `-m ARGS`) and `MetadataArgs`
(`--all-features`, `--no-default-features`, `--features`, `--target`,
`--manifest-path`); the `update` subcommand takes only `--cache-max-age`.
`cache_max_age` falls back to `Duration::from_secs(48 * 3600)` when absent.
The embedding below maps a token list to the parsed arguments; any token not
belonging to the subcommand's declared options is rejected, as `bpaf` does. -/

/-- `Duration::from_secs(48 * 3600)` in nanoseconds. -/
def DEFAULT_CACHE_MAX_AGE : Nat := 48 * 3600 * 1000000000

/-- Nanoseconds to whole seconds, as `Duration::as_secs`. -/
def secondsOf (n : Nat) : Nat := n / 1000000000

/-- `QueryCommandArgs` from `src/main.rs` (shared by crates, publishers, json). -/
structure QueryCommandArgs where
  cache_max_age : Nat
  diffable : Bool
  metadata_args : List String
deriving DecidableEq, Repr

/-- `MetadataArgs` from `src/main.rs` (passed on to `cargo metadata`). -/
structure MetadataArgs where
  all_features : Bool
  no_default_features : Bool
  features : Option String
  target : Option String
  manifest_path : Option String
deriving DecidableEq, Repr

/-- `ValidatedArgs` from `src/main.rs`.  The `Help` variant is not produced by
the `bpaf` parser (it is part of the commented-out `pico_args` path), so it is
omitted here. -/
inductive ValidatedArgs where
  | Publishers (args : QueryCommandArgs) (meta_args : MetadataArgs)
  | Crates (args : QueryCommandArgs) (meta_args : MetadataArgs)
  | Json (args : QueryCommandArgs) (meta_args : MetadataArgs)
  | Update (cache_max_age : Nat)
deriving DecidableEq, Repr

/-- Accumulator while scanning a query subcommand's tokens. -/
structure QState where
  cma : Option Nat := none
  diffable : Bool := false
  metadata_args : List String := []
  all_features : Bool := false
  no_default_features : Bool := false
  features : Option String := none
  target : Option String := none
  manifest_path : Option String := none
deriving DecidableEq, Repr

/-- Is `p` a prefix of `s`?  Character-list implementation of
`str::starts_with`, used for the `--flag=value` token forms. -/
def strStartsWith (s p : String) : Bool :=
  p.data.isPrefixOf s.data

/-- The role one command-line token plays for the option scanners: each
declared flag, its `--flag=value` form with the value split off, or an
unrecognized token. -/
inductive TokKind where
  | diffableFlag
  | cmaFlag
  | cmaEq (v : String)
  | mFlag
  | allFeaturesFlag
  | noDefaultFlag
  | featuresFlag
  | featuresEq (v : String)
  | targetFlag
  | targetEq (v : String)
  | manifestFlag
  | manifestEq (v : String)
  | other
deriving DecidableEq, Repr

/-- Classify one token against the declared options of `args_parser`. -/
def classifyTok (tok : String) : TokKind :=
  if tok = "-d" ∨ tok = "--diffable" then .diffableFlag
  else if tok = "--cache-max-age" then .cmaFlag
  else if strStartsWith tok "--cache-max-age=" then .cmaEq (tok.drop 16)
  else if tok = "-m" then .mFlag
  else if tok = "--all-features" then .allFeaturesFlag
  else if tok = "--no-default-features" then .noDefaultFlag
  else if tok = "--features" then .featuresFlag
  else if strStartsWith tok "--features=" then .featuresEq (tok.drop 11)
  else if tok = "--target" then .targetFlag
  else if strStartsWith tok "--target=" then .targetEq (tok.drop 9)
  else if tok = "--manifest-path" then .manifestFlag
  else if strStartsWith tok "--manifest-path=" then .manifestEq (tok.drop 16)
  else .other

/-- Scan the tokens after a query subcommand, in any order, as `bpaf` consumes
them.  A flag given twice, a value flag with no value, an unparsable
`--cache-max-age` value, or an unrecognized token all fail. -/
def parseQueryTokens : QState → List String → Option QState
  | st, [] => some st
  | st, tok :: rest =>
    match classifyTok tok, rest with
    | .diffableFlag, rest => parseQueryTokens { st with diffable := true } rest
    | .cmaFlag, [] => none
    | .cmaFlag, v :: rest2 =>
      if st.cma.isSome then none
      else
        match parse_duration v with
        | none => none
        | some dur => parseQueryTokens { st with cma := some dur } rest2
    | .cmaEq v, rest =>
      if st.cma.isSome then none
      else
        match parse_duration v with
        | none => none
        | some dur => parseQueryTokens { st with cma := some dur } rest
    | .mFlag, [] => none
    | .mFlag, v :: rest2 =>
      parseQueryTokens { st with metadata_args := st.metadata_args ++ [v] } rest2
    | .allFeaturesFlag, rest => parseQueryTokens { st with all_features := true } rest
    | .noDefaultFlag, rest => parseQueryTokens { st with no_default_features := true } rest
    | .featuresFlag, [] => none
    | .featuresFlag, v :: rest2 =>
      if st.features.isSome then none
      else parseQueryTokens { st with features := some v } rest2
    | .featuresEq v, rest =>
      if st.features.isSome then none
      else parseQueryTokens { st with features := some v } rest
    | .targetFlag, [] => none
    | .targetFlag, v :: rest2 =>
      if st.target.isSome then none
      else parseQueryTokens { st with target := some v } rest2
    | .targetEq v, rest =>
      if st.target.isSome then none
      else parseQueryTokens { st with target := some v } rest
    | .manifestFlag, [] => none
    | .manifestFlag, v :: rest2 =>
      if st.manifest_path.isSome then none
      else parseQueryTokens { st with manifest_path := some v } rest2
    | .manifestEq v, rest =>
      if st.manifest_path.isSome then none
      else parseQueryTokens { st with manifest_path := some v } rest
    | .other, _ => none

/-- Scan the tokens after `update`: only `--cache-max-age` is declared, every
other token is rejected. -/
def parseUpdateTokens : Option Nat → List String → Option (Option Nat)
  | acc, [] => some acc
  | acc, tok :: rest =>
    match classifyTok tok, rest with
    | .cmaFlag, [] => none
    | .cmaFlag, v :: rest2 =>
      if acc.isSome then none
      else
        match parse_duration v with
        | none => none
        | some dur => parseUpdateTokens (some dur) rest2
    | .cmaEq v, rest =>
      if acc.isSome then none
      else
        match parse_duration v with
        | none => none
        | some dur => parseUpdateTokens (some dur) rest
    | _, _ => none

/-- Package a finished scan into the two argument records, applying the
`fallback(Duration::from_secs(48 * 3600))` of `cache_max_age_parser`. -/
def mkQuery (st : QState) : QueryCommandArgs × MetadataArgs :=
  (⟨st.cma.getD DEFAULT_CACHE_MAX_AGE, st.diffable, st.metadata_args⟩,
   ⟨st.all_features, st.no_default_features, st.features, st.target, st.manifest_path⟩)

/-- The whole `args_parser`: dispatch on the subcommand name, then scan its
options. -/
def argsParser : List String → Option ValidatedArgs
  | "publishers" :: rest =>
    (parseQueryTokens {} rest).map fun st => ValidatedArgs.Publishers (mkQuery st).1 (mkQuery st).2
  | "crates" :: rest =>
    (parseQueryTokens {} rest).map fun st => ValidatedArgs.Crates (mkQuery st).1 (mkQuery st).2
  | "json" :: rest =>
    (parseQueryTokens {} rest).map fun st => ValidatedArgs.Json (mkQuery st).1 (mkQuery st).2
  | "update" :: rest =>
    (parseUpdateTokens none rest).map fun c => ValidatedArgs.Update (c.getD DEFAULT_CACHE_MAX_AGE)
  | _ => none

/-- The cache max age carried by a parse result, whichever the subcommand. -/
def cacheMaxAgeOf : ValidatedArgs → Nat
  | .Publishers a _ => a.cache_max_age
  | .Crates a _ => a.cache_max_age
  | .Json a _ => a.cache_max_age
  | .Update c => c

/-- The four subcommand names accepted by `args_parser`. -/
def allCommands : List String := ["publishers", "crates", "json", "update"]

/-- Does this token supply a `--cache-max-age` value (either the bare flag or
the `--cache-max-age=VALUE` form)? -/
def suppliesCMA (t : String) : Bool :=
  match classifyTok t with
  | .cmaFlag => true
  | .cmaEq _ => true
  | _ => false

/-- Does any token in the list supply a `--cache-max-age` value? -/
def mentionsCMA (toks : List String) : Bool :=
  toks.any suppliesCMA

/-! ## Accounts and publisher sets

Modelled from the spec: the `publishers`/`common` modules are not under
`src/`.  An Account is a tagged union of user and team (spec §3, §9);
PublisherSets deduplicate by account id (spec §3). -/

/-- Spec §9: owner kind as a sum tag, user vs team. -/
inductive AccountKind where
  | user
  | team
deriving DecidableEq, Repr

/-- Modelled from the spec: a publisher identity (spec §3 Account); the
user/team-specific naming fields are collapsed into one display string, which
the claims never inspect beyond equality. -/
structure Account where
  id : Nat
  kind : AccountKind
  login : String
deriving DecidableEq, Repr

/-- Modelled from the spec: PublisherSet union, deduplicating by Account id
(spec §3: "dedup by Account id"; §4.5: "unioned by Account id, never
duplicated"). -/
def dedupById (acc : List Account) (more : List Account) : List Account :=
  more.foldl (fun acc a => if acc.any fun b => b.id = a.id then acc else acc ++ [a]) acc

/-! ## Cache freshness

Modelled from the spec: the `crates_cache` module implementing the Snapshot
Store is not under `src/`.  Spec §3: a Snapshot is fresh iff
`now - acquisition_timestamp < max_age`; §4.1: `is_fresh` is a pure
comparison against wall-clock time.  Times are in seconds since an epoch. -/

/-- Modelled from the spec: `is_fresh(snapshot, max_age)` over the snapshot's
acquisition timestamp and the current wall-clock time. -/
def is_fresh (acquisition_timestamp now max_age : Nat) : Bool :=
  now - acquisition_timestamp < max_age

/-! ## Snapshot Store as a state machine

Modelled from the spec: the `crates_cache` module implementing the Snapshot
Store is not under `src/`.  Spec §4.1/§5: `install` writes the new table
files into a temporary location and then performs one atomic rename; only
that commit changes what `current_snapshot()` readers observe.  Directories
are numbered; each holds up to four table files (packages, package-owners,
users, teams), each tagged with the generation that wrote it. -/

/-- On-disk state of the Snapshot Store: all directories' table files, the
pointer to the live snapshot directory, the staging directory of an install
in progress (with the generation it writes), and a fresh-directory counter. -/
structure StoreState where
  dirs : Nat → Fin 4 → Option Nat
  livePtr : Option Nat
  tempPtr : Option Nat
  stagingGen : Nat
  nextDir : Nat

/-- First-run state: nothing on disk. -/
def initStore : StoreState :=
  { dirs := fun _ _ => none, livePtr := none, tempPtr := none, stagingGen := 0, nextDir := 0 }

/-- `current_snapshot()`: what a reader observes — the four table files of the
live directory, if any (spec §4.1). -/
def current_snapshot (s : StoreState) : Option (Fin 4 → Option Nat) :=
  s.livePtr.map s.dirs

/-- The Snapshot Store's transitions (spec §4.1 `install`, decomposed into its
observable filesystem steps): start an install into a fresh staging
directory, write one table file there, atomically commit a complete staging
directory, or fail/abort leaving the live snapshot untouched. -/
inductive StoreStep : StoreState → StoreState → Prop where
  | beginInstall (s : StoreState) (g : Nat) (h : s.tempPtr = none) :
      StoreStep s { s with tempPtr := some s.nextDir, stagingGen := g, nextDir := s.nextDir + 1 }
  | writeTable (s : StoreState) (t : Nat) (i : Fin 4) (h : s.tempPtr = some t) :
      StoreStep s
        { s with dirs := fun d j => if d = t ∧ j = i then some s.stagingGen else s.dirs d j }
  | commit (s : StoreState) (t : Nat) (h : s.tempPtr = some t)
      (hc : ∀ i : Fin 4, s.dirs t i = some s.stagingGen) :
      StoreStep s { s with livePtr := some t, tempPtr := none }
  | abort (s : StoreState) :
      StoreStep s { s with tempPtr := none }

/-- States reachable from the first-run state. -/
inductive StoreReachable : StoreState → Prop where
  | init : StoreReachable initStore
  | step {s s' : StoreState} : StoreReachable s → StoreStep s s' → StoreReachable s'

/-- Store invariant: the live directory (if any) holds a complete snapshot of
one single generation; the staging directory is distinct from the live one,
below the allocation counter, and holds only current-generation files;
unallocated directories are empty. -/
def StoreInv (s : StoreState) : Prop :=
  (∀ L, s.livePtr = some L → ∃ g, ∀ i : Fin 4, s.dirs L i = some g) ∧
  (∀ t, s.tempPtr = some t → s.livePtr ≠ some t) ∧
  (∀ d, s.nextDir ≤ d → ∀ i : Fin 4, s.dirs d i = none) ∧
  (∀ t, s.tempPtr = some t → t < s.nextDir) ∧
  (∀ L, s.livePtr = some L → L < s.nextDir) ∧
  (∀ t i, s.tempPtr = some t → s.dirs t i = none ∨ s.dirs t i = some s.stagingGen)

/-! ## Live API Client retry policy

Modelled from the spec: the `api_client` module is not under `src/`.
Spec §4.4: transient failures (HTTP 5xx, connection reset, timeout) are
retried with exponential backoff up to a fixed attempt count; 404 yields
`ApiError::NotFound` with no retry; any other 4xx yields
`ApiError::ClientError` with no retry. -/

/-- Spec §7 `ApiError` taxonomy. -/
inductive ApiError where
  | notFound
  | clientError
  | transient
deriving DecidableEq, Repr

/-- One network attempt's outcome as seen by the client. -/
inductive HttpResponse where
  | status (code : Nat) (owners : List Account)
  | connReset
  | timeout
deriving DecidableEq, Repr

/-- Spec §9: retry/backoff expressed as an explicit policy object. -/
structure RetryPolicy where
  max_attempts : Nat
  base_delay_ms : Nat
  multiplier : Nat
deriving DecidableEq, Repr

/-- Classification of one attempt per the retry policy. -/
inductive ReqOutcome where
  | success (owners : List Account)
  | hitNotFound
  | hitClientError
  | transientFail
deriving DecidableEq, Repr

/-- Modelled from the spec: status classification — 2xx/3xx succeed, 404 is
not-found, other 4xx are client errors, 5xx and connection-level failures are
transient. -/
def classify : HttpResponse → ReqOutcome
  | .status c o =>
    if c < 400 then .success o
    else if c = 404 then .hitNotFound
    else if c < 500 then .hitClientError
    else .transientFail
  | .connReset => .transientFail
  | .timeout => .transientFail

/-- Modelled from the spec: the retry loop.  `rs k` is the outcome of attempt
`k`; the fuel is the remaining attempt budget.  Returns the final result and
the list of backoff delays slept between attempts (base · multiplier^k before
re-attempting after attempt `k`). -/
def ownersLoop (pol : RetryPolicy) (rs : Nat → HttpResponse) :
    Nat → Nat → Except ApiError (List Account) × List Nat
  | _, 0 => (.error .transient, [])
  | k, fuel + 1 =>
    match classify (rs k) with
    | .success o => (.ok o, [])
    | .hitNotFound => (.error .notFound, [])
    | .hitClientError => (.error .clientError, [])
    | .transientFail =>
      if fuel = 0 then (.error .transient, [])
      else
        let r := ownersLoop pol rs (k + 1) fuel
        (r.1, pol.base_delay_ms * pol.multiplier ^ k :: r.2)

/-- Modelled from the spec: `owners_of(package)` under a retry policy, given
the per-attempt network outcomes. -/
def owners_of_api (pol : RetryPolicy) (rs : Nat → HttpResponse) :
    Except ApiError (List Account) × List Nat :=
  ownersLoop pol rs 0 pol.max_attempts

/-! ## Resolver

Modelled from the spec: the resolver (spec §4.5) is not under `src/`.  For
each package in input order: consult the Registry Index; a hit with only user
accounts is returned as-is with no network call; a hit containing unexpanded
team accounts triggers one members-of-team API call per team; a miss triggers
one owners-of-package API call.  A per-package API failure is recorded as an
annotation on that package's entry and never aborts the rest. -/

/-- The Live API Client interface the Resolver consumes (spec §6: owners of
package X, members of team Y). -/
structure ApiOracle where
  owners_of : String → Except ApiError (List Account)
  team_members : Nat → Except ApiError (List Account)

/-- One entry of the Resolver's output: the package, its PublisherSet, and an
optional failure annotation — `none` means every lookup succeeded, so an
empty set with `none` is a genuine "no publishers found" (spec §7). -/
structure ResolvedEntry where
  package : String
  publishers : List Account
  failure : Option ApiError
deriving DecidableEq, Repr

/-- A record of one Live API Client invocation. -/
inductive ApiCall where
  | owners (pkg : String)
  | members (team_id : Nat)
deriving DecidableEq, Repr

/-- Modelled from the spec: expand each unexpanded team through the API,
merging by account id; a failed team keeps its team-kind account from the
snapshot and records the (first) failure annotation. -/
def expandTeams (api : ApiOracle) (base : List Account) (teams : List Account) :
    List Account × Option ApiError × List ApiCall :=
  teams.foldl
    (fun st t =>
      match api.team_members t.id with
      | .ok ms => (dedupById st.1 ms, st.2.1, st.2.2 ++ [ApiCall.members t.id])
      | .error e => (dedupById st.1 [t], st.2.1 <|> some e, st.2.2 ++ [ApiCall.members t.id]))
    (base, none, [])

/-- Modelled from the spec: resolve one package against the index and the
API, returning its entry and the API calls made for it. -/
def resolveOne (index : String → Option (List Account)) (api : ApiOracle) (p : String) :
    ResolvedEntry × List ApiCall :=
  match index p with
  | some s =>
    let users := s.filter fun a => a.kind = AccountKind.user
    let teams := s.filter fun a => a.kind = AccountKind.team
    if teams.isEmpty then (⟨p, s, none⟩, [])
    else
      match expandTeams api (dedupById [] users) teams with
      | (pubs, err, calls) => (⟨p, pubs, err⟩, calls)
  | none =>
    match api.owners_of p with
    | .ok s => (⟨p, dedupById [] s, none⟩, [ApiCall.owners p])
    | .error e => (⟨p, [], some e⟩, [ApiCall.owners p])

/-- Modelled from the spec: `Resolver.resolve`, one entry per package in the
caller's order. -/
def resolve (index : String → Option (List Account)) (api : ApiOracle)
    (pkgs : List String) : List ResolvedEntry :=
  pkgs.map fun p => (resolveOne index api p).1

/-- All Live API Client invocations made during `resolve`. -/
def resolveCalls (index : String → Option (List Account)) (api : ApiOracle)
    (pkgs : List String) : List ApiCall :=
  pkgs.flatMap fun p => (resolveOne index api p).2

/-- Placeholder entry for the arrival-order model's lookup default. -/
def defaultEntry : ResolvedEntry := ⟨"", [], none⟩

/-- Modelled from the spec (§5): concurrent resolution — per-package results
are produced in the order network responses arrive (`arrival` lists input
indices in completion order) and are then collected back into input order
before being handed to the caller. -/
def resolveArrival (index : String → Option (List Account)) (api : ApiOracle)
    (pkgs : List String) (arrival : List Nat) : List ResolvedEntry :=
  let computed := arrival.map fun i => (i, (resolveOne index api (pkgs.getD i "")).1)
  (List.range pkgs.length).map fun i => (computed.lookup i).getD defaultEntry

/-! ## Registry Index built from a dump snapshot

Modelled from the spec: the `crates_cache`/`publishers` modules are not under
`src/`.  Spec §4.3/§6: the dump's tables are packages (id, name),
package-owners (package id, owner id, owner kind), users (id, login, name),
teams (id, org, name), plus whatever team-membership rows the dump carries.
Team owners whose membership is in the dump are expanded into their member
user accounts at build time; teams without membership rows are kept as a
team-kind Account. -/

/-- A row of the dump's `packages` table. -/
structure PackageRow where
  id : Nat
  name : String
deriving DecidableEq, Repr

/-- A row of the dump's `package-owners` table; `owner_kind` 0 = user,
1 = team. -/
structure OwnerRow where
  package_id : Nat
  owner_id : Nat
  owner_kind : Nat
deriving DecidableEq, Repr

/-- A row of the dump's `users` table. -/
structure UserRow where
  id : Nat
  login : String
  user_name : String
deriving DecidableEq, Repr

/-- A row of the dump's `teams` table. -/
structure TeamRow where
  id : Nat
  org : String
  team_name : String
deriving DecidableEq, Repr

/-- A team-membership row, when the dump carries membership data. -/
structure MembershipRow where
  team_id : Nat
  user_id : Nat
deriving DecidableEq, Repr

/-- The tabular content of one dump snapshot. -/
structure DumpSnapshot where
  packages : List PackageRow
  owners : List OwnerRow
  users : List UserRow
  teams : List TeamRow
  memberships : List MembershipRow
deriving DecidableEq, Repr

/-- The user-kind Account for a users-table row. -/
def accountOfUser (u : UserRow) : Account := ⟨u.id, .user, u.login⟩

/-- The team-kind Account for a teams-table row. -/
def accountOfTeam (t : TeamRow) : Account := ⟨t.id, .team, t.org ++ "/" ++ t.team_name⟩

/-- Modelled from the spec: the accounts one owner row contributes — a user
owner resolves through the users table; a team owner is expanded into its
member users when membership rows are present, else kept as a team-kind
Account. -/
def ownerAccounts (d : DumpSnapshot) (o : OwnerRow) : List Account :=
  if o.owner_kind = 0 then
    match d.users.find? fun u => u.id == o.owner_id with
    | some u => [accountOfUser u]
    | none => []
  else
    let members := d.memberships.filter fun m => m.team_id == o.owner_id
    if members.isEmpty then
      match d.teams.find? fun t => t.id == o.owner_id with
      | some t => [accountOfTeam t]
      | none => []
    else
      members.foldl
        (fun acc m =>
          match d.users.find? fun u => u.id == m.user_id with
          | some u => acc ++ [accountOfUser u]
          | none => acc)
        []

/-- Modelled from the spec: `RegistryIndex.publishers_of` — `none` when the
package is absent from the snapshot, else its PublisherSet (deduplicated by
account id). -/
def publishers_of (d : DumpSnapshot) (package_name : String) : Option (List Account) :=
  match d.packages.find? fun p => p.name == package_name with
  | some p =>
    some (dedupById []
      ((d.owners.filter fun o => o.package_id == p.id).foldl
        (fun acc o => acc ++ ownerAccounts d o) []))
  | none => none

/-- A concrete dump snapshot: package p1 owned by user u1; p2 owned by team
100 whose membership (user u2) is inlined; p3 owned by team 200 with no
membership rows. -/
def demoDump : DumpSnapshot :=
  { packages := [⟨1, "p1"⟩, ⟨2, "p2"⟩, ⟨3, "p3"⟩]
    owners := [⟨1, 10, 0⟩, ⟨2, 100, 1⟩, ⟨3, 200, 1⟩]
    users := [⟨10, "u1", "User One"⟩, ⟨20, "u2", "User Two"⟩]
    teams := [⟨100, "org", "t1"⟩, ⟨200, "org", "t2"⟩]
    memberships := [⟨100, 20⟩] }

/-- A concrete Registry Index: only "known" is present, published by one
user account. -/
def demoIndex : String → Option (List Account) := fun p =>
  if p = "known" then some [⟨1, AccountKind.user, "alice"⟩] else none

/-- A concrete Live API Client: "ghost" is a 404, everything else has no
owners; team membership queries return nothing. -/
def demoApi : ApiOracle :=
  { owners_of := fun p => if p = "ghost" then .error .notFound else .ok []
    team_members := fun _ => .ok [] }

/-! ## Lemmas about the option scanners -/

/-- Splitting a `mentionsCMA` fact over a cons. -/
theorem mentionsCMA_cons_split {t : String} {ts : List String}
    (h : mentionsCMA (t :: ts) = false) :
    suppliesCMA t = false ∧ mentionsCMA ts = false := by
  simp only [mentionsCMA, List.any_cons, Bool.or_eq_false_iff] at h
  exact h

theorem cmaPreservedQueryAux : ∀ (n : ℕ) (toks : List String), toks.length ≤ n →
    ∀ st st' : QState,
    mentionsCMA toks = false → parseQueryTokens st toks = some st' → st'.cma = st.cma := by
  intro n
  induction n with
  | zero =>
    rintro (_ | ⟨tok, rest⟩) hlen st st' hm hp
    · exact congrArg QState.cma (Option.some.inj hp).symm
    · simp at hlen
  | succ n ih =>
    rintro (_ | ⟨tok, rest⟩) hlen st st' hm hp
    · exact congrArg QState.cma (Option.some.inj hp).symm
    · obtain ⟨hm0, hmr⟩ : suppliesCMA tok = false ∧ mentionsCMA rest = false := by
        simp only [mentionsCMA, List.any_cons, Bool.or_eq_false_iff] at hm
        exact hm
      have hlr : rest.length ≤ n := by
        simp only [List.length_cons] at hlen
        omega
      rw [parseQueryTokens.eq_def] at hp
      cases hct : classifyTok tok with
      | diffableFlag =>
        simp only [hct] at hp
        exact ih rest hlr { st with diffable := true } st' hmr hp
      | cmaFlag =>
        rw [suppliesCMA.eq_def, hct] at hm0
        exact nomatch hm0
      | cmaEq v =>
        rw [suppliesCMA.eq_def, hct] at hm0
        exact nomatch hm0
      | mFlag =>
        cases rest with
        | nil =>
          simp only [hct] at hp
          exact nomatch hp
        | cons w rest2 =>
          simp only [hct] at hp
          have hlr2 : rest2.length ≤ n := by
            simp only [List.length_cons] at hlen
            omega
          have hmr2 : mentionsCMA rest2 = false := by
            simp only [mentionsCMA, List.any_cons, Bool.or_eq_false_iff] at hmr ⊢
            exact hmr.2
          exact ih rest2 hlr2 { st with metadata_args := st.metadata_args ++ [w] } st' hmr2 hp
      | allFeaturesFlag =>
        simp only [hct] at hp
        exact ih rest hlr { st with all_features := true } st' hmr hp
      | noDefaultFlag =>
        simp only [hct] at hp
        exact ih rest hlr { st with no_default_features := true } st' hmr hp
      | featuresFlag =>
        cases rest with
        | nil =>
          simp only [hct] at hp
          exact nomatch hp
        | cons w rest2 =>
          simp only [hct] at hp
          by_cases hf : st.features.isSome = true
          · rw [if_pos hf] at hp
            exact nomatch hp
          · rw [if_neg hf] at hp
            have hlr2 : rest2.length ≤ n := by
              simp only [List.length_cons] at hlen
              omega
            have hmr2 : mentionsCMA rest2 = false := by
              simp only [mentionsCMA, List.any_cons, Bool.or_eq_false_iff] at hmr ⊢
              exact hmr.2
            exact ih rest2 hlr2 { st with features := some w } st' hmr2 hp
      | featuresEq v =>
        simp only [hct] at hp
        by_cases hf : st.features.isSome = true
        · rw [if_pos hf] at hp
          exact nomatch hp
        · rw [if_neg hf] at hp
          exact ih rest hlr { st with features := some v } st' hmr hp
      | targetFlag =>
        cases rest with
        | nil =>
          simp only [hct] at hp
          exact nomatch hp
        | cons w rest2 =>
          simp only [hct] at hp
          by_cases hf : st.target.isSome = true
          · rw [if_pos hf] at hp
            exact nomatch hp
          · rw [if_neg hf] at hp
            have hlr2 : rest2.length ≤ n := by
              simp only [List.length_cons] at hlen
              omega
            have hmr2 : mentionsCMA rest2 = false := by
              simp only [mentionsCMA, List.any_cons, Bool.or_eq_false_iff] at hmr ⊢
              exact hmr.2
            exact ih rest2 hlr2 { st with target := some w } st' hmr2 hp
      | targetEq v =>
        simp only [hct] at hp
        by_cases hf : st.target.isSome = true
        · rw [if_pos hf] at hp
          exact nomatch hp
        · rw [if_neg hf] at hp
          exact ih rest hlr { st with target := some v } st' hmr hp
      | manifestFlag =>
        cases rest with
        | nil =>
          simp only [hct] at hp
          exact nomatch hp
        | cons w rest2 =>
          simp only [hct] at hp
          by_cases hf : st.manifest_path.isSome = true
          · rw [if_pos hf] at hp
            exact nomatch hp
          · rw [if_neg hf] at hp
            have hlr2 : rest2.length ≤ n := by
              simp only [List.length_cons] at hlen
              omega
            have hmr2 : mentionsCMA rest2 = false := by
              simp only [mentionsCMA, List.any_cons, Bool.or_eq_false_iff] at hmr ⊢
              exact hmr.2
            exact ih rest2 hlr2 { st with manifest_path := some w } st' hmr2 hp
      | manifestEq v =>
        simp only [hct] at hp
        by_cases hf : st.manifest_path.isSome = true
        · rw [if_pos hf] at hp
          exact nomatch hp
        · rw [if_neg hf] at hp
          exact ih rest hlr { st with manifest_path := some v } st' hmr hp
      | other =>
        simp only [hct] at hp
        exact nomatch hp

/-- A token list free of `--cache-max-age` leaves the `update` scanner's
accumulator untouched. -/
theorem cmaPreservedUpdate (toks : List String) (acc acc' : Option Nat)
    (hm : mentionsCMA toks = false) (hp : parseUpdateTokens acc toks = some acc') :
    acc' = acc := by
  cases toks with
  | nil => exact (Option.some.inj hp).symm
  | cons tok rest =>
    obtain ⟨hm0, hmr⟩ := mentionsCMA_cons_split hm
    rw [parseUpdateTokens.eq_def] at hp
    cases hct : classifyTok tok
    case cmaFlag =>
      rw [suppliesCMA.eq_def, hct] at hm0
      exact nomatch hm0
    case cmaEq v =>
      rw [suppliesCMA.eq_def, hct] at hm0
      exact nomatch hm0
    all_goals
      simp only [hct] at hp
      exact nomatch hp

/-! ## C1: default and user-supplied cache max age -/

/-- C1: for every command, when the user does not supply a cache max age the
value used is exactly 48 hours (172800 seconds, here in nanoseconds); when
the user supplies one through `--cache-max-age`, the supplied value is used
instead. -/
theorem C1_cache_max_age_default :
    (∀ cmd rest va, cmd ∈ allCommands → mentionsCMA rest = false →
        argsParser (cmd :: rest) = some va → cacheMaxAgeOf va = DEFAULT_CACHE_MAX_AGE) ∧
    (∀ cmd v d rest va, cmd ∈ allCommands → parse_duration v = some d →
        mentionsCMA rest = false →
        argsParser (cmd :: "--cache-max-age" :: v :: rest) = some va →
        cacheMaxAgeOf va = d) ∧
    secondsOf DEFAULT_CACHE_MAX_AGE = 48 * 3600 := by
  refine ⟨?_, ?_, rfl⟩
  · intro cmd rest va hcmd hm hp
    simp only [allCommands, List.mem_cons, List.not_mem_nil, or_false] at hcmd
    rcases hcmd with rfl | rfl | rfl | rfl
    · have hp' : (parseQueryTokens {} rest).map
          (fun st => ValidatedArgs.Publishers (mkQuery st).1 (mkQuery st).2) = some va := hp
      obtain ⟨st, hst, hva⟩ := Option.map_eq_some'.mp hp'
      subst hva
      have hcma : st.cma = ({} : QState).cma :=
        cmaPreservedQueryAux rest.length rest le_rfl {} st hm hst
      show st.cma.getD DEFAULT_CACHE_MAX_AGE = DEFAULT_CACHE_MAX_AGE
      rw [hcma]
      rfl
    · have hp' : (parseQueryTokens {} rest).map
          (fun st => ValidatedArgs.Crates (mkQuery st).1 (mkQuery st).2) = some va := hp
      obtain ⟨st, hst, hva⟩ := Option.map_eq_some'.mp hp'
      subst hva
      have hcma : st.cma = ({} : QState).cma :=
        cmaPreservedQueryAux rest.length rest le_rfl {} st hm hst
      show st.cma.getD DEFAULT_CACHE_MAX_AGE = DEFAULT_CACHE_MAX_AGE
      rw [hcma]
      rfl
    · have hp' : (parseQueryTokens {} rest).map
          (fun st => ValidatedArgs.Json (mkQuery st).1 (mkQuery st).2) = some va := hp
      obtain ⟨st, hst, hva⟩ := Option.map_eq_some'.mp hp'
      subst hva
      have hcma : st.cma = ({} : QState).cma :=
        cmaPreservedQueryAux rest.length rest le_rfl {} st hm hst
      show st.cma.getD DEFAULT_CACHE_MAX_AGE = DEFAULT_CACHE_MAX_AGE
      rw [hcma]
      rfl
    · have hp' : (parseUpdateTokens none rest).map
          (fun c => ValidatedArgs.Update (c.getD DEFAULT_CACHE_MAX_AGE)) = some va := hp
      obtain ⟨c, hc, hva⟩ := Option.map_eq_some'.mp hp'
      subst hva
      have hacc : c = none := cmaPreservedUpdate rest none c hm hc
      show c.getD DEFAULT_CACHE_MAX_AGE = DEFAULT_CACHE_MAX_AGE
      rw [hacc]
      rfl
  · intro cmd v d rest va hcmd hpd hm hp
    simp only [allCommands, List.mem_cons, List.not_mem_nil, or_false] at hcmd
    have hq : ∀ st : QState, st.cma = none →
        parseQueryTokens st ("--cache-max-age" :: v :: rest) =
          parseQueryTokens { st with cma := some d } rest := by
      intro st hst
      rw [parseQueryTokens.eq_def]
      simp only [show classifyTok "--cache-max-age" = TokKind.cmaFlag from rfl, hst, hpd]
      rfl
    rcases hcmd with rfl | rfl | rfl | rfl
    · have hp' : (parseQueryTokens {} ("--cache-max-age" :: v :: rest)).map
          (fun st => ValidatedArgs.Publishers (mkQuery st).1 (mkQuery st).2) = some va := hp
      rw [hq {} rfl] at hp'
      obtain ⟨st, hst, hva⟩ := Option.map_eq_some'.mp hp'
      subst hva
      have hcma : st.cma = some d :=
        cmaPreservedQueryAux rest.length rest le_rfl _ st hm hst
      show st.cma.getD DEFAULT_CACHE_MAX_AGE = d
      rw [hcma]
      rfl
    · have hp' : (parseQueryTokens {} ("--cache-max-age" :: v :: rest)).map
          (fun st => ValidatedArgs.Crates (mkQuery st).1 (mkQuery st).2) = some va := hp
      rw [hq {} rfl] at hp'
      obtain ⟨st, hst, hva⟩ := Option.map_eq_some'.mp hp'
      subst hva
      have hcma : st.cma = some d :=
        cmaPreservedQueryAux rest.length rest le_rfl _ st hm hst
      show st.cma.getD DEFAULT_CACHE_MAX_AGE = d
      rw [hcma]
      rfl
    · have hp' : (parseQueryTokens {} ("--cache-max-age" :: v :: rest)).map
          (fun st => ValidatedArgs.Json (mkQuery st).1 (mkQuery st).2) = some va := hp
      rw [hq {} rfl] at hp'
      obtain ⟨st, hst, hva⟩ := Option.map_eq_some'.mp hp'
      subst hva
      have hcma : st.cma = some d :=
        cmaPreservedQueryAux rest.length rest le_rfl _ st hm hst
      show st.cma.getD DEFAULT_CACHE_MAX_AGE = d
      rw [hcma]
      rfl
    · have hp' : (parseUpdateTokens none ("--cache-max-age" :: v :: rest)).map
          (fun c => ValidatedArgs.Update (c.getD DEFAULT_CACHE_MAX_AGE)) = some va := hp
      have hu : parseUpdateTokens none ("--cache-max-age" :: v :: rest) =
          parseUpdateTokens (some d) rest := by
        rw [parseUpdateTokens.eq_def]
        simp only [show classifyTok "--cache-max-age" = TokKind.cmaFlag from rfl, hpd]
        rfl
      rw [hu] at hp'
      obtain ⟨c, hc, hva⟩ := Option.map_eq_some'.mp hp'
      subst hva
      have hacc : c = some d := cmaPreservedUpdate rest (some d) c hm hc
      show c.getD DEFAULT_CACHE_MAX_AGE = d
      rw [hacc]
      rfl

/-- Witness for C1 at `crates -d` (default) and `crates --cache-max-age 7d`
(supplied). -/
theorem C1_cache_max_age_default_witness :
    cacheMaxAgeOf (ValidatedArgs.Crates ⟨DEFAULT_CACHE_MAX_AGE, true, []⟩
        ⟨false, false, none, none, none⟩) = DEFAULT_CACHE_MAX_AGE ∧
    cacheMaxAgeOf (ValidatedArgs.Crates ⟨604800000000000, false, []⟩
        ⟨false, false, none, none, none⟩) = 604800000000000 :=
  ⟨C1_cache_max_age_default.1 "crates" ["-d"] _ (by decide) (by decide) (by decide),
   C1_cache_max_age_default.2.1 "crates" "7d" 604800000000000 [] _ (by decide) (by decide)
     (by decide) (by decide)⟩

/-! ## C9 and C10: per-subcommand option acceptance -/

theorem updateRejectsDiffableAux : ∀ (n : ℕ) (toks : List String), toks.length ≤ n →
    ("-d" ∈ toks ∨ "--diffable" ∈ toks) → ∀ acc, parseUpdateTokens acc toks = none := by
  intro n
  induction n with
  | zero =>
    rintro (_ | ⟨tok, rest⟩) hlen hmem acc
    · simp at hmem
    · simp at hlen
  | succ n ih =>
    rintro (_ | ⟨tok, rest⟩) hlen hmem acc
    · simp at hmem
    · have hlr : rest.length ≤ n := by
        simp only [List.length_cons] at hlen
        omega
      rw [parseUpdateTokens.eq_def]
      cases hct : classifyTok tok
      case cmaFlag =>
        have hmem' : "-d" ∈ rest ∨ "--diffable" ∈ rest := by
          rcases hmem with hd | hd <;> rcases List.mem_cons.mp hd with rfl | hd
          · rw [show classifyTok "-d" = TokKind.diffableFlag from rfl] at hct
            exact nomatch hct
          · exact Or.inl hd
          · rw [show classifyTok "--diffable" = TokKind.diffableFlag from rfl] at hct
            exact nomatch hct
          · exact Or.inr hd
        cases rest with
        | nil => simp only [hct]
        | cons v rest2 =>
          simp only [hct]
          have hlr2 : rest2.length ≤ n := by
            simp only [List.length_cons] at hlen
            omega
          by_cases ha : acc.isSome = true
          · rw [if_pos ha]
          · rw [if_neg ha]
            cases hpd : parse_duration v with
            | none => rfl
            | some dur =>
              have hmem2 : "-d" ∈ rest2 ∨ "--diffable" ∈ rest2 := by
                rcases hmem' with hd | hd <;> rcases List.mem_cons.mp hd with rfl | hd
                · rw [show parse_duration "-d" = none from rfl] at hpd
                  exact nomatch hpd
                · exact Or.inl hd
                · rw [show parse_duration "--diffable" = none from rfl] at hpd
                  exact nomatch hpd
                · exact Or.inr hd
              exact ih rest2 hlr2 hmem2 (some dur)
      case cmaEq v =>
        have hmem' : "-d" ∈ rest ∨ "--diffable" ∈ rest := by
          rcases hmem with hd | hd <;> rcases List.mem_cons.mp hd with rfl | hd
          · rw [show classifyTok "-d" = TokKind.diffableFlag from rfl] at hct
            exact nomatch hct
          · exact Or.inl hd
          · rw [show classifyTok "--diffable" = TokKind.diffableFlag from rfl] at hct
            exact nomatch hct
          · exact Or.inr hd
        simp only [hct]
        by_cases ha : acc.isSome = true
        · rw [if_pos ha]
        · rw [if_neg ha]
          cases hpd : parse_duration v with
          | none => rfl
          | some dur => exact ih rest hlr hmem' (some dur)
      all_goals simp only [hct]

theorem digit_not_ws {c : Char} (h : c.isDigit = true) : c.isWhitespace = false := by
  simp only [Char.isDigit, Bool.and_eq_true, decide_eq_true_eq] at h
  simp only [Char.isWhitespace, Bool.or_eq_false_iff, decide_eq_false_iff_not]
  refine ⟨⟨⟨?_, ?_⟩, ?_⟩, ?_⟩ <;> rintro rfl <;> revert h <;> decide

theorem digitsVal_snd_nil : ∀ (l : List Char) (n : Nat),
    (∀ x ∈ l, x.isDigit = true) → (digitsVal n l).2 = [] := by
  intro l
  induction l with
  | nil => intro n _; rfl
  | cons c cs ih =>
    intro n hall
    rw [digitsVal, if_pos (hall c (List.mem_cons_self c cs))]
    exact ih _ fun x hx => hall x (List.mem_cons_of_mem c hx)

theorem parse_duration_all_digits {s : String} (hne : s ≠ "")
    (hd : ∀ c ∈ s.data, c.isDigit = true) : parse_duration s = none := by
  obtain ⟨l⟩ := s
  cases l with
  | nil => exact absurd rfl hne
  | cons c cs =>
    have hc : c.isDigit = true := hd c (List.mem_cons_self c cs)
    have hnws : c.isWhitespace = false := digit_not_ws hc
    have hdrop : (c :: cs).dropWhile Char.isWhitespace = c :: cs :=
      List.dropWhile_cons_of_neg (by rw [hnws]; exact Bool.false_ne_true)
    have hlist : (String.mk (c :: cs)).toList = c :: cs := rfl
    rw [parse_duration]
    simp only [hlist, hdrop, List.isEmpty_cons]
    obtain ⟨x, hx⟩ : ∃ x, digitsVal 0 (c :: cs) = (x, []) :=
      ⟨(digitsVal 0 (c :: cs)).1, by rw [← digitsVal_snd_nil (c :: cs) 0 hd]⟩
    simp only [List.length_cons]
    rw [parseDurGroups.eq_def]
    simp only [hdrop, takeDigits, if_pos hc, hx, takeUnitChars,
      show unitNanos (String.mk []) = none from rfl]
    rfl

/-- C9: the query subcommands publishers, crates and json accept
`-d`/`--diffable` (and `--cache-max-age`), while any `update` invocation that
includes `-d` or `--diffable` is rejected; `update` accepts only
`--cache-max-age`. -/
theorem C9_diffable_per_subcommand :
    (∀ cmd, cmd ∈ ["publishers", "crates", "json"] →
      (argsParser [cmd, "-d"]).isSome = true ∧
      (argsParser [cmd, "--diffable"]).isSome = true ∧
      (argsParser [cmd, "-d", "--cache-max-age=7d"]).isSome = true ∧
      (argsParser [cmd, "--cache-max-age=7d"]).isSome = true) ∧
    (∀ rest, ("-d" ∈ rest ∨ "--diffable" ∈ rest) → argsParser ("update" :: rest) = none) ∧
    (argsParser ["update"]).isSome = true ∧
    (argsParser ["update", "--cache-max-age=7d"]).isSome = true := by
  refine ⟨?_, ?_, by decide, by decide⟩
  · intro cmd hcmd
    simp only [List.mem_cons, List.not_mem_nil, or_false] at hcmd
    rcases hcmd with rfl | rfl | rfl <;> exact ⟨by decide, by decide, by decide, by decide⟩
  · intro rest hmem
    have hp : parseUpdateTokens none rest = none :=
      updateRejectsDiffableAux rest.length rest le_rfl hmem none
    have hred : argsParser ("update" :: rest) = (parseUpdateTokens none rest).map
        (fun c => ValidatedArgs.Update (c.getD DEFAULT_CACHE_MAX_AGE)) := rfl
    rw [hred, hp]
    rfl

/-- Witness for C9: `crates -d` parses, `update -d` is rejected. -/
theorem C9_diffable_per_subcommand_witness :
    (argsParser ["crates", "-d"]).isSome = true ∧ argsParser ("update" :: ["-d"]) = none :=
  ⟨(C9_diffable_per_subcommand.1 "crates" (by decide)).1,
   C9_diffable_per_subcommand.2.1 ["-d"] (Or.inl (by decide))⟩

/-- C10: `--cache-max-age` is accepted only when its value parses as a
human-readable duration with an explicit time unit; a bare number such as
"5", or the flag with no value at all, makes argument parsing fail instead
of being read as seconds or falling back to the default. -/
theorem C10_cache_max_age_requires_unit :
    (∀ cmd, cmd ∈ allCommands →
      argsParser [cmd, "--cache-max-age"] = none ∧
      argsParser [cmd, "--cache-max-age", "5"] = none ∧
      argsParser [cmd, "--cache-max-age=5"] = none ∧
      (argsParser [cmd, "--cache-max-age", "7d"]).isSome = true ∧
      (argsParser [cmd, "--cache-max-age=1w"]).isSome = true) ∧
    (∀ cmd v, cmd ∈ allCommands → parse_duration v = none →
      argsParser [cmd, "--cache-max-age", v] = none) ∧
    (∀ s : String, s ≠ "" → (∀ c ∈ s.data, c.isDigit = true) → parse_duration s = none) := by
  refine ⟨?_, ?_, fun s h1 h2 => parse_duration_all_digits h1 h2⟩
  · intro cmd hcmd
    simp only [allCommands, List.mem_cons, List.not_mem_nil, or_false] at hcmd
    rcases hcmd with rfl | rfl | rfl | rfl <;>
      exact ⟨by decide, by decide, by decide, by decide, by decide⟩
  · intro cmd v hcmd hpd
    simp only [allCommands, List.mem_cons, List.not_mem_nil, or_false] at hcmd
    have hq : parseQueryTokens {} ["--cache-max-age", v] =
        (match parse_duration v with
          | none => none
          | some dur => parseQueryTokens { cma := some dur } [] : Option QState) := rfl
    have hu : parseUpdateTokens none ["--cache-max-age", v] =
        (match parse_duration v with
          | none => none
          | some dur => parseUpdateTokens (some dur) [] : Option (Option Nat)) := rfl
    rcases hcmd with rfl | rfl | rfl | rfl
    · have hred : argsParser ["publishers", "--cache-max-age", v] =
          (parseQueryTokens {} ["--cache-max-age", v]).map
            (fun st => ValidatedArgs.Publishers (mkQuery st).1 (mkQuery st).2) := rfl
      rw [hred, hq, hpd]
      rfl
    · have hred : argsParser ["crates", "--cache-max-age", v] =
          (parseQueryTokens {} ["--cache-max-age", v]).map
            (fun st => ValidatedArgs.Crates (mkQuery st).1 (mkQuery st).2) := rfl
      rw [hred, hq, hpd]
      rfl
    · have hred : argsParser ["json", "--cache-max-age", v] =
          (parseQueryTokens {} ["--cache-max-age", v]).map
            (fun st => ValidatedArgs.Json (mkQuery st).1 (mkQuery st).2) := rfl
      rw [hred, hq, hpd]
      rfl
    · have hred : argsParser ["update", "--cache-max-age", v] =
          (parseUpdateTokens none ["--cache-max-age", v]).map
            (fun c => ValidatedArgs.Update (c.getD DEFAULT_CACHE_MAX_AGE)) := rfl
      rw [hred, hu, hpd]
      rfl

/-- Witness for C10: the flag with no value and a non-duration value are
rejected for `crates`, and the bare number "5" is not a valid duration. -/
theorem C10_cache_max_age_requires_unit_witness :
    argsParser ["crates", "--cache-max-age"] = none ∧
    argsParser ["crates", "--cache-max-age", "xx"] = none ∧
    parse_duration "5" = none :=
  ⟨(C10_cache_max_age_requires_unit.1 "crates" (by decide)).1,
   C10_cache_max_age_requires_unit.2.1 "crates" "xx" (by decide) (by decide),
   C10_cache_max_age_requires_unit.2.2 "5" (by decide) (by decide)⟩

/-! ## C2: cache freshness -/

/-- C2: freshness is a pure function of the triple `(acquisition_timestamp,
now, max_age)`: `is_fresh` is true iff `now - acquisition_timestamp <
max_age`, so a snapshot exactly `max_age` old is stale (exclusive boundary)
and any younger one is fresh. -/
theorem C2_freshness_pure_exclusive_boundary :
    (∀ a now m, is_fresh a now m = decide (now - a < m)) ∧
    (∀ a m, is_fresh a (a + m) m = false) ∧
    (∀ a now m, now - a < m → is_fresh a now m = true) := by
  refine ⟨fun a now m => rfl, fun a m => ?_, fun a now m h => ?_⟩
  · simp [is_fresh, Nat.add_sub_cancel_left]
  · simp [is_fresh, h]

/-- Witness for C2: at age exactly max_age the snapshot is stale; younger it
is fresh. -/
theorem C2_freshness_pure_exclusive_boundary_witness :
    is_fresh 100 (100 + 3600) 3600 = false ∧ is_fresh 100 3699 3600 = true :=
  ⟨C2_freshness_pure_exclusive_boundary.2.1 100 3600,
   C2_freshness_pure_exclusive_boundary.2.2 100 3699 3600 (by decide)⟩

/-! ## C3: atomic snapshot install -/

theorem storeInv_init : StoreInv initStore := by
  refine ⟨?_, ?_, ?_, ?_, ?_, ?_⟩ <;> intro _ h <;> simp [initStore] at h ⊢

theorem storeInv_step {s s' : StoreState} (hinv : StoreInv s) (hs : StoreStep s s') :
    StoreInv s' := by
  obtain ⟨i1, i2, i3, i4, i5, i6⟩ := hinv
  cases hs with
  | beginInstall g h =>
    refine ⟨i1, ?_, ?_, ?_, ?_, ?_⟩
    · intro t ht
      simp only [Option.some.injEq] at ht
      subst ht
      intro hl
      exact absurd (i5 _ hl) (lt_irrefl _)
    · intro d hd i
      simp only at hd
      exact i3 d (by omega) i
    · intro t ht
      simp only [Option.some.injEq] at ht
      subst ht
      simp only
      omega
    · intro L hL
      simp only at hL ⊢
      exact Nat.lt_succ_of_lt (i5 L hL)
    · intro t i ht
      simp only [Option.some.injEq] at ht
      subst ht
      exact Or.inl (i3 _ le_rfl i)
  | writeTable t i h =>
    have hlt : t < s.nextDir := i4 t h
    refine ⟨?_, i2, ?_, i4, i5, ?_⟩
    · intro L hL
      simp only at hL
      obtain ⟨g, hg⟩ := i1 L hL
      refine ⟨g, fun j => ?_⟩
      simp only
      rw [if_neg]
      · exact hg j
      · rintro ⟨hLt, -⟩
        exact i2 t h (hLt ▸ hL)
    · intro d hd j
      simp only at hd ⊢
      rw [if_neg]
      · exact i3 d hd j
      · rintro ⟨rfl, -⟩
        omega
    · intro t' j ht'
      simp only at ht'
      have heq : t' = t := by
        rw [h] at ht'
        exact (Option.some.inj ht').symm
      rw [heq]
      simp only
      by_cases hj : j = i
      · rw [if_pos ⟨trivial, hj⟩]
        exact Or.inr rfl
      · rw [if_neg fun hcon => hj hcon.2]
        exact i6 t j h
  | commit t h hc =>
    refine ⟨?_, ?_, i3, ?_, ?_, ?_⟩
    · intro L hL
      simp only [Option.some.injEq] at hL
      subst hL
      exact ⟨s.stagingGen, hc⟩
    · intro t' ht'
      simp only at ht'
      exact nomatch ht'
    · intro t' ht'
      simp only at ht'
      exact nomatch ht'
    · intro L hL
      simp only [Option.some.injEq] at hL
      subst hL
      exact i4 _ h
    · intro t' j ht'
      simp only at ht'
      exact nomatch ht'
  | abort =>
    refine ⟨i1, ?_, i3, ?_, i5, ?_⟩
    · intro t ht
      simp only at ht
      exact nomatch ht
    · intro t ht
      simp only at ht
      exact nomatch ht
    · intro t j ht
      simp only at ht
      exact nomatch ht

theorem storeInv_reachable {s : StoreState} (h : StoreReachable s) : StoreInv s := by
  induction h with
  | init => exact storeInv_init
  | step _ hs ih => exact storeInv_step ih hs

/-- C3: Snapshot Store install is atomic — in every reachable state a reader
of `current_snapshot` sees either no snapshot or four table files of one
single generation, never a mix of generations; the only step that changes
the observation is the commit of a complete staging snapshot; a failed or
aborted install leaves the previous snapshot as the current one. -/
theorem C3_install_atomic :
    (∀ s, StoreReachable s → ∀ snap, current_snapshot s = some snap →
      ∃ g, ∀ i : Fin 4, snap i = some g) ∧
    (∀ s s', StoreReachable s → StoreStep s s' →
      current_snapshot s' = current_snapshot s ∨
      ∃ t, s.tempPtr = some t ∧ (∀ i : Fin 4, s.dirs t i = some s.stagingGen) ∧
        current_snapshot s' = some (s.dirs t)) ∧
    (∀ s : StoreState, current_snapshot { s with tempPtr := none } = current_snapshot s) := by
  refine ⟨?_, ?_, fun s => rfl⟩
  · intro s hs snap hsnap
    obtain ⟨i1, -, -, -, -, -⟩ := storeInv_reachable hs
    unfold current_snapshot at hsnap
    cases hL : s.livePtr with
    | none => rw [hL] at hsnap; exact nomatch hsnap
    | some L =>
      rw [hL] at hsnap
      obtain ⟨g, hg⟩ := i1 L hL
      refine ⟨g, fun i => ?_⟩
      have : snap = s.dirs L := (Option.some.inj hsnap).symm
      rw [this]
      exact hg i
  · intro s s' hs hstep
    obtain ⟨-, i2, -, -, -, -⟩ := storeInv_reachable hs
    cases hstep with
    | beginInstall g h => exact Or.inl rfl
    | writeTable t i h =>
      left
      unfold current_snapshot
      simp only
      cases hL : s.livePtr with
      | none => rfl
      | some L =>
        simp only [Option.map_some']
        congr 1
        funext j
        rw [if_neg]
        rintro ⟨hLt, -⟩
        exact i2 t h (hLt ▸ hL)
    | commit t h hc =>
      right
      exact ⟨t, h, hc, rfl⟩
    | abort => exact Or.inl rfl

/-- Witness for C3: an aborted install from the first-run state leaves the
observed snapshot unchanged. -/
theorem C3_install_atomic_witness :
    current_snapshot { initStore with tempPtr := none } = current_snapshot initStore ∨
    ∃ t, initStore.tempPtr = some t ∧
      (∀ i : Fin 4, initStore.dirs t i = some initStore.stagingGen) ∧
      current_snapshot { initStore with tempPtr := none } = some (initStore.dirs t) :=
  C3_install_atomic.2.1 initStore { initStore with tempPtr := none }
    StoreReachable.init (StoreStep.abort initStore)

/-! ## C4, C5, C6: the Resolver -/

theorem resolveOne_package (index : String → Option (List Account)) (api : ApiOracle)
    (p : String) : ((resolveOne index api p).1).package = p := by
  unfold resolveOne
  cases hip : index p with
  | none => cases api.owners_of p <;> rfl
  | some s =>
    dsimp only
    split <;> rfl

theorem resolve_packages (index : String → Option (List Account)) (api : ApiOracle)
    (pkgs : List String) :
    (resolve index api pkgs).map ResolvedEntry.package = pkgs := by
  unfold resolve
  rw [List.map_map]
  conv_rhs => rw [← List.map_id pkgs]
  exact List.map_congr_left fun p _ => resolveOne_package index api p

theorem expandTeams_calls_members (api : ApiOracle) :
    ∀ (ts : List Account) (acc : List Account × Option ApiError × List ApiCall),
    (∀ c ∈ acc.2.2, ∃ tid, c = ApiCall.members tid) →
    ∀ c ∈ (ts.foldl
      (fun st t =>
        match api.team_members t.id with
        | .ok ms => (dedupById st.1 ms, st.2.1, st.2.2 ++ [ApiCall.members t.id])
        | .error e => (dedupById st.1 [t], st.2.1 <|> some e, st.2.2 ++ [ApiCall.members t.id]))
      acc).2.2, ∃ tid, c = ApiCall.members tid := by
  intro ts
  induction ts with
  | nil => intro acc hacc c hc; exact hacc c hc
  | cons t ts ih =>
    intro acc hacc c hc
    rw [List.foldl_cons] at hc
    refine ih _ ?_ c hc
    cases api.team_members t.id with
    | ok ms =>
      intro c' hc'
      simp only [List.mem_append, List.mem_singleton] at hc'
      rcases hc' with hc' | rfl
      · exact hacc c' hc'
      · exact ⟨t.id, rfl⟩
    | error e =>
      intro c' hc'
      simp only [List.mem_append, List.mem_singleton] at hc'
      rcases hc' with hc' | rfl
      · exact hacc c' hc'
      · exact ⟨t.id, rfl⟩

/-- C4: if the Live API Client fails for one package, `resolve` still
returns an entry for it — the snapshot-determined PublisherSet (possibly
empty) plus a failure annotation — resolution of every other package
completes (the output has one entry per input package), and a
successfully-queried empty PublisherSet (`failure = none`) is never
represented like an annotated failure (`failure = some e`). -/
theorem C4_partial_failure :
    (∀ index api pkgs, (resolve index api pkgs).map ResolvedEntry.package = pkgs) ∧
    (∀ index api p e, index p = none → api.owners_of p = .error e →
      (resolveOne index api p).1 = ⟨p, [], some e⟩) ∧
    (∀ index api p, index p = none → api.owners_of p = .ok [] →
      (resolveOne index api p).1 = ⟨p, [], none⟩) ∧
    (∀ index api p t e, index p = some [t] → t.kind = AccountKind.team →
      api.team_members t.id = .error e →
      (resolveOne index api p).1 = ⟨p, [t], some e⟩) ∧
    (∀ p e, (⟨p, [], none⟩ : ResolvedEntry) ≠ ⟨p, [], some e⟩) := by
  refine ⟨resolve_packages, ?_, ?_, ?_, ?_⟩
  · intro index api p e hip hapi
    unfold resolveOne
    rw [hip, hapi]
  · intro index api p hip hapi
    unfold resolveOne
    rw [hip, hapi]
    rfl
  · intro index api p t e hip ht hapi
    unfold resolveOne
    rw [hip]
    have hu : [t].filter (fun a => a.kind = AccountKind.user) = [] := by
      simp [List.filter, ht]
    have htm : [t].filter (fun a => a.kind = AccountKind.team) = [t] := by
      simp [List.filter, ht]
    dsimp only
    rw [hu, htm]
    simp only [List.isEmpty_cons, Bool.false_eq_true, if_false]
    unfold expandTeams
    rw [List.foldl_cons, hapi]
    rfl
  · intro p e h
    simp at h

/-- Witness for C4: with "ghost" a 404, both packages keep their entries in
order and ghost's entry is empty with a not-found annotation. -/
theorem C4_partial_failure_witness :
    (resolve demoIndex demoApi ["known", "ghost"]).map ResolvedEntry.package =
      ["known", "ghost"] ∧
    (resolveOne demoIndex demoApi "ghost").1 = ⟨"ghost", [], some ApiError.notFound⟩ :=
  ⟨C4_partial_failure.1 demoIndex demoApi ["known", "ghost"],
   C4_partial_failure.2.1 demoIndex demoApi "ghost" ApiError.notFound (by decide) rfl⟩

theorem lookup_map_self (f : Nat → ResolvedEntry) :
    ∀ (arrival : List Nat) (i : Nat), i ∈ arrival →
    ((arrival.map fun j => (j, f j)).lookup i) = some (f i) := by
  intro arrival
  induction arrival with
  | nil => intro i hi; exact absurd hi (List.not_mem_nil i)
  | cons a l ih =>
    intro i hi
    simp only [List.map_cons, List.lookup]
    by_cases hia : i = a
    · subst hia
      rw [beq_self_eq_true]
    · rw [beq_eq_false_iff_ne.mpr hia]
      exact ih i ((List.mem_cons.mp hi).resolve_left hia)

theorem map_range_getD (pkgs : List String) (g : String → ResolvedEntry) :
    (List.range pkgs.length).map (fun i => g (pkgs.getD i "")) = pkgs.map g := by
  induction pkgs with
  | nil => rfl
  | cons p ps ih =>
    rw [List.length_cons, List.range_succ_eq_map, List.map_cons, List.map_map]
    congr 1

/-- C5: the ordered mapping returned by `resolve` lists entries in exactly
the caller's input order, and collecting concurrently-arriving per-package
results back into input order yields the same output whatever the arrival
order. -/
theorem C5_input_order :
    (∀ index api pkgs arrival, (∀ i, i < pkgs.length → i ∈ arrival) →
      resolveArrival index api pkgs arrival = resolve index api pkgs) ∧
    (∀ index api pkgs, (resolve index api pkgs).map ResolvedEntry.package = pkgs) := by
  refine ⟨?_, resolve_packages⟩
  intro index api pkgs arrival hcov
  unfold resolveArrival
  have hmap : ∀ i ∈ List.range pkgs.length,
      (((arrival.map fun j => (j, (resolveOne index api (pkgs.getD j "")).1)).lookup i).getD
        defaultEntry) = (resolveOne index api (pkgs.getD i "")).1 := by
    intro i hi
    rw [lookup_map_self (fun j => (resolveOne index api (pkgs.getD j "")).1) arrival i
      (hcov i (List.mem_range.mp hi))]
    rfl
  rw [List.map_congr_left hmap]
  exact map_range_getD pkgs fun q => (resolveOne index api q).1

/-- Witness for C5: the responses for `["known", "ghost"]` arriving in the
order 1, 0 still produce the output in input order. -/
theorem C5_input_order_witness :
    resolveArrival demoIndex demoApi ["known", "ghost"] [1, 0] =
      resolve demoIndex demoApi ["known", "ghost"] :=
  C5_input_order.1 demoIndex demoApi ["known", "ghost"] [1, 0] (fun i hi => by
    have h2 : i < 2 := by simpa using hi
    interval_cases i <;> decide)

/-- C6: for a package present in the Snapshot whose owners are all fully
inlined user accounts, `resolve` returns exactly the Registry Index's
PublisherSet and never invokes the Live API Client for that package; for a
package absent from the index, the client is invoked exactly once. -/
theorem C6_snapshot_only_no_api :
    (∀ index api p s, index p = some s → (∀ a ∈ s, a.kind = AccountKind.user) →
      resolveOne index api p = (⟨p, s, none⟩, [])) ∧
    (∀ index api pkgs p s, index p = some s → (∀ a ∈ s, a.kind = AccountKind.user) →
      ApiCall.owners p ∉ resolveCalls index api pkgs) ∧
    (∀ index api p, index p = none → (resolveOne index api p).2 = [ApiCall.owners p]) := by
  have hteams : ∀ (s : List Account), (∀ a ∈ s, a.kind = AccountKind.user) →
      s.filter (fun a => a.kind = AccountKind.team) = [] := by
    intro s hs
    rw [List.filter_eq_nil_iff]
    intro a ha
    rw [hs a ha]
    decide
  refine ⟨?_, ?_, ?_⟩
  · intro index api p s hip hall
    unfold resolveOne
    rw [hip]
    dsimp only
    rw [hteams s hall]
    rfl
  · intro index api pkgs p s hip hall hmem
    simp only [resolveCalls, List.mem_flatMap] at hmem
    obtain ⟨q, -, hq⟩ := hmem
    revert hq
    unfold resolveOne
    cases hiq : index q with
    | none =>
      cases api.owners_of q with
      | ok s' =>
        intro hq
        simp only [List.mem_singleton] at hq
        have : p = q := by injection hq
        subst this
        rw [hip] at hiq
        exact Option.noConfusion hiq
      | error e =>
        intro hq
        simp only [List.mem_singleton] at hq
        have : p = q := by injection hq
        subst this
        rw [hip] at hiq
        exact Option.noConfusion hiq
    | some s' =>
      dsimp only
      split
      · intro hq
        exact absurd hq (List.not_mem_nil _)
      · intro hq
        obtain ⟨tid, htid⟩ := expandTeams_calls_members api _ _ (fun c hc => absurd hc (List.not_mem_nil c)) _ hq
        exact ApiCall.noConfusion htid
  · intro index api p hip
    unfold resolveOne
    rw [hip]
    cases api.owners_of p <;> rfl

/-- Witness for C6: the fully-inlined package "known" resolves from the
index alone, with no API call for it anywhere in the run. -/
theorem C6_snapshot_only_no_api_witness :
    resolveOne demoIndex demoApi "known" =
      (⟨"known", [⟨1, AccountKind.user, "alice"⟩], none⟩, []) ∧
    ApiCall.owners "known" ∉ resolveCalls demoIndex demoApi ["known", "ghost"] :=
  ⟨C6_snapshot_only_no_api.1 demoIndex demoApi "known" [⟨1, AccountKind.user, "alice"⟩]
      (by decide) (by decide),
   C6_snapshot_only_no_api.2.1 demoIndex demoApi ["known", "ghost"] "known"
      [⟨1, AccountKind.user, "alice"⟩] (by decide) (by decide)⟩

/-! ## C7: Live API Client retry policy -/

theorem ownersLoop_all_transient (pol : RetryPolicy) (rs : Nat → HttpResponse)
    (hall : ∀ j, classify (rs j) = ReqOutcome.transientFail) :
    ∀ (fuel k : Nat), ownersLoop pol rs k (fuel + 1) =
      (.error .transient,
        (List.range fuel).map fun j => pol.base_delay_ms * pol.multiplier ^ (k + j)) := by
  intro fuel
  induction fuel with
  | zero =>
    intro k
    rw [ownersLoop, hall k]
    rfl
  | succ fuel ih =>
    intro k
    rw [ownersLoop, hall k]
    simp only [Nat.succ_ne_zero, if_false]
    rw [ih (k + 1)]
    conv_rhs => rw [List.range_succ_eq_map, List.map_cons, List.map_map]
    dsimp only
    rw [Nat.add_zero]
    congr 2
    refine List.map_congr_left fun j _ => ?_
    simp only [Function.comp_apply]
    congr 2
    omega

/-- C7: `owners_of` retries transient failures (HTTP 5xx, connection reset,
timeout) with exponential backoff (`base · multiplier^k` before re-attempt
`k+1`) up to the fixed attempt count; HTTP 404 is never retried and yields
`ApiError::NotFound`; any other 4xx is never retried and yields
`ApiError::ClientError`. -/
theorem C7_retry_policy :
    (∀ pol rs l, 1 ≤ pol.max_attempts → rs 0 = HttpResponse.status 404 l →
      owners_of_api pol rs = (.error .notFound, [])) ∧
    (∀ pol rs c l, 1 ≤ pol.max_attempts → rs 0 = HttpResponse.status c l →
      400 ≤ c → c < 500 → c ≠ 404 →
      owners_of_api pol rs = (.error .clientError, [])) ∧
    (∀ pol rs, 1 ≤ pol.max_attempts → (∀ k, classify (rs k) = ReqOutcome.transientFail) →
      owners_of_api pol rs = (.error .transient,
        (List.range (pol.max_attempts - 1)).map fun k =>
          pol.base_delay_ms * pol.multiplier ^ k)) ∧
    (∀ c l, 500 ≤ c → classify (HttpResponse.status c l) = ReqOutcome.transientFail) ∧
    classify HttpResponse.connReset = ReqOutcome.transientFail ∧
    classify HttpResponse.timeout = ReqOutcome.transientFail := by
  refine ⟨?_, ?_, ?_, ?_, rfl, rfl⟩
  · intro pol rs l h1 h0
    unfold owners_of_api
    obtain ⟨m, hm⟩ : ∃ m, pol.max_attempts = m + 1 :=
      ⟨pol.max_attempts - 1, by omega⟩
    rw [hm, ownersLoop, h0]
    rfl
  · intro pol rs c l h1 h0 hc1 hc2 hc3
    unfold owners_of_api
    obtain ⟨m, hm⟩ : ∃ m, pol.max_attempts = m + 1 :=
      ⟨pol.max_attempts - 1, by omega⟩
    rw [hm, ownersLoop, h0]
    have hcl : classify (HttpResponse.status c l) = ReqOutcome.hitClientError := by
      show (if c < 400 then ReqOutcome.success l
        else if c = 404 then ReqOutcome.hitNotFound
        else if c < 500 then ReqOutcome.hitClientError
        else ReqOutcome.transientFail) = ReqOutcome.hitClientError
      rw [if_neg (by omega), if_neg hc3, if_pos hc2]
    rw [hcl]
  · intro pol rs h1 hall
    unfold owners_of_api
    obtain ⟨m, hm⟩ : ∃ m, pol.max_attempts = m + 1 :=
      ⟨pol.max_attempts - 1, by omega⟩
    rw [hm, ownersLoop_all_transient pol rs hall m 0]
    simp only [hm, Nat.add_sub_cancel]
    exact congrArg _ (List.map_congr_left fun j _ => by rw [Nat.zero_add])
  · intro c l hc
    show (if c < 400 then ReqOutcome.success l
      else if c = 404 then ReqOutcome.hitNotFound
      else if c < 500 then ReqOutcome.hitClientError
      else ReqOutcome.transientFail) = ReqOutcome.transientFail
    rw [if_neg (by omega), if_neg (by omega), if_neg (by omega)]

/-- Witness for C7: with three attempts, base delay 10 and multiplier 2, an
always-timing-out endpoint exhausts retries with delays 10 then 20; a 404
fails immediately with no retry. -/
theorem C7_retry_policy_witness :
    owners_of_api ⟨3, 10, 2⟩ (fun _ => HttpResponse.timeout) =
      (Except.error ApiError.transient, [10, 20]) ∧
    owners_of_api ⟨3, 10, 2⟩ (fun _ => HttpResponse.status 404 []) =
      (Except.error ApiError.notFound, []) := by
  constructor
  · have h := C7_retry_policy.2.2.1 ⟨3, 10, 2⟩ (fun _ => HttpResponse.timeout)
      (by decide) (fun k => rfl)
    rw [h]
    rfl
  · exact C7_retry_policy.1 ⟨3, 10, 2⟩ (fun _ => HttpResponse.status 404 []) [] (by decide) rfl

/-! ## C8: Registry Index round trip -/

/-- C8: building the index from a snapshot with P1 owned by user U1 and P2
owned by team T1 whose membership (U2) is inlined yields
`publishers_of(P1) = {U1}` and `publishers_of(P2) = {U2}`; a team with no
membership rows (P3's owner) is kept as a team-kind Account. -/
theorem C8_registry_index_round_trip :
    publishers_of demoDump "p1" = some [⟨10, AccountKind.user, "u1"⟩] ∧
    publishers_of demoDump "p2" = some [⟨20, AccountKind.user, "u2"⟩] ∧
    publishers_of demoDump "p3" = some [⟨200, AccountKind.team, "org/t2"⟩] ∧
    publishers_of demoDump "absent" = none := by decide

end SupplyChain
